import Mathlib

/-!
Verification of the timing core of `maelzel.core.chain` (and the event-merge
logic of `maelzel.core.event`) against its natural-language specification.

The embedding is shallow: the Python classes `Note` (a leaf event) and `Chain`
(a sequential container) become the inductive type `Item`; time values (the
exact-rational `F` type of the source) become `ℚ`; in-place mutation becomes
functions returning the updated value; a raised exception becomes the
`Except.error` case.

Notes on fidelity:

* Leaf events always carry a concrete rational duration, as the data model
  demands ("leaf events always have a concrete duration").  The only `raise`
  in the source's `_stackEvents` is a guard for an event whose duration is
  `None`; with concrete durations that guard is unreachable, so the stacking
  pass here is a total function.  In particular `_stackEvents` contains no
  overlap check of any kind.
* Chord events add no timing behaviour over notes, so the timing model `Item`
  carries single-pitch note data only; the glissando-resolution pass and the
  synth-grouping pass, which do distinguish notes from chords, use their own
  event types (`GEv`, `SEv`) below, mirroring exactly the fields those passes
  read.
* A few small helpers (`MObj.relOffset`, `MObj._detachedOffset`,
  `MObj.resolveEnd`, `MEvent.timeShiftInPlace`) live in `maelzel/core/mobj.py`,
  which is not part of the sources at hand; they are modelled from the spec
  where used and marked as such.
-/

/-- Content fields of a `Note` that the container algorithms inspect
(`mergeWith` compatibility and rest detection): pitch, amplitude, dynamic,
tie flag, glissando flag and label. -/
structure NoteData where
  pitch : ℚ
  amp : Option ℚ
  dynamic : String
  tied : Bool
  gliss : Bool
  label : String
deriving DecidableEq, Repr

/-- An item of a chain: either a leaf event (source class `MEvent`/`Note`,
with its explicit `offset`, cached `_resolvedOffset` and duration `dur`) or a
nested chain (source class `Chain`, with its own `offset`, cached
`_resolvedOffset`, cached `_dur` and child items). -/
inductive Item where
  | event (offset : Option ℚ) (resolvedOffset : Option ℚ) (dur : ℚ) (data : NoteData)
  | chain (offset : Option ℚ) (resolvedOffset : Option ℚ) (durCache : ℚ) (items : List Item)
deriving Repr

mutual

/-- Structural equality of items, used to embed Python's `list.index`. -/
def Item.beq : Item → Item → Bool
  | .event o r d n, .event o' r' d' n' => o == o' && r == r' && d == d' && n == n'
  | .chain o r d its, .chain o' r' d' its' => o == o' && r == r' && d == d' && Item.beqList its its'
  | _, _ => false

/-- Pointwise `Item.beq` on lists. -/
def Item.beqList : List Item → List Item → Bool
  | [], [] => true
  | a :: as, b :: bs => Item.beq a b && Item.beqList as bs
  | _, _ => false

end

instance : BEq Item := ⟨Item.beq⟩

/-- The running-cursor computation of `_stackEvents` (chain.py:39-71), final
cursor value only: an explicit offset moves the cursor to it (with no check
against the current cursor value), an event advances by its duration, a nested
chain advances by its own recursively stacked duration. -/
def stackDur : List Item → ℚ → ℚ
  | [], now => now
  | .event o _ d _ :: rest, now => stackDur rest (o.getD now + d)
  | .chain o _ _ its :: rest, now => stackDur rest (o.getD now + stackDur its 0)

/-- The item-updating effect of `_stackEvents` (chain.py:39-71): each item's
`_resolvedOffset` cache is set to the cursor, unset offsets are made explicit
when `explicit` is true, and a nested chain gets its `_dur` cache set to its
recursively stacked duration.  (The source computes this and `stackDur` in one
in-place pass; they are split here into the list effect and the returned
total.) -/
def stackList (explicit : Bool) : List Item → ℚ → List Item
  | [], _ => []
  | .event o _ d n :: rest, now =>
      let now0 := o.getD now
      let o' := if explicit && o.isNone then some now0 else o
      .event o' (some now0) d n :: stackList explicit rest (now0 + d)
  | .chain o _ _ its :: rest, now =>
      let now0 := o.getD now
      let o' := if explicit && o.isNone then some now0 else o
      let subdur := stackDur its 0
      .chain o' (some now0) subdur (stackList explicit its 0) :: stackList explicit rest (now0 + subdur)

/-- `Chain.stack` (chain.py:232-242): `_stackEvents(self.items, explicitOffsets=True)`,
returning the updated items and the total duration. -/
def stack (items : List Item) : List Item × ℚ :=
  (stackList true items 0, stackDur items 0)

/-- Sum of the durations of a list of items, where a nested chain contributes
the (recursive) sum of its children: the "sum of all item durations" of the
spec's stacking-determinism property. -/
def itemsDur : List Item → ℚ
  | [] => 0
  | .event _ _ d _ :: rest => d + itemsDur rest
  | .chain _ _ _ its :: rest => itemsDur its + itemsDur rest

/-- Cumulative-sum offset assignment in the spec's words: each item's explicit
offset becomes the sum of the durations of the preceding items of its
enclosing container, recursively; given in order to be compared with what
`stackList` actually computes. -/
def specAssign : ℚ → List Item → List Item
  | _, [] => []
  | now, .event _ _ d n :: rest => .event (some now) (some now) d n :: specAssign (now + d) rest
  | now, .chain _ _ _ its :: rest =>
      .chain (some now) (some now) (itemsDur its) (specAssign 0 its) ::
        specAssign (now + itemsDur its) rest

/-- All items (recursively) have unset offsets. -/
def noOffs : List Item → Bool
  | [] => true
  | .event o _ _ _ :: rest => o.isNone && noOffs rest
  | .chain o _ _ its :: rest => o.isNone && noOffs its && noOffs rest

/-- All items (recursively) have unset offsets: the state
`removeRedundantOffsets` is claimed to restore after `stack()`. -/
def allOffsNone : List Item → Bool
  | [] => true
  | .event o _ _ _ :: rest => o.isNone && allOffsNone rest
  | .chain o _ _ its :: rest => o.isNone && allOffsNone its && allOffsNone rest

/-- Clear every explicit offset, recursively, leaving all other fields
(resolved-offset caches, durations) untouched. -/
def stripOffsets : List Item → List Item
  | [] => []
  | .event _ r d n :: rest => .event none r d n :: stripOffsets rest
  | .chain _ r dc its :: rest => .chain none r dc (stripOffsets its) :: stripOffsets rest

/-- The `_detachedOffset` of an item.  Modelled from the spec: the helper lives
in the missing `mobj.py`; per spec section 4.1 an item's relative offset is its
explicit `offset` if set, else the cached `_resolvedOffset` from the last
stacking pass (else nothing). -/
def detachedOffset : Item → Option ℚ
  | .event o r _ _ => o.orElse fun _ => r
  | .chain o r _ _ => o.orElse fun _ => r

/-- The per-item offset handling of `_removeRedundantOffsets`
(chain.py:92-102), shared by the walk's two components below: with `io` the
item's `_detachedOffset` (explicit offset if set, else the cached resolved
offset), the absolute offset `io + frame` equal to `now` clears the explicit
offset; one earlier than `now` raises (`"Items overlap"`); a later one leaves
the offset in place and advances `now` to it.  The source's extra clearing
condition `i == 0 or items[i-1].dur is not None` always holds here, since
durations are concrete rationals.  Returns the (possibly cleared) offset and
the new `now`. -/
def stepClear (o r : Option ℚ) (frame now : ℚ) : Except String (Option ℚ × ℚ) :=
  match o.orElse fun _ => r with
  | none => .ok (o, now)
  | some io =>
      if io + frame = now then .ok (none, now)
      else if io + frame < now then .error "Items overlap"
      else .ok (o, io + frame)

/-- Duration component of `_removeRedundantOffsets` (chain.py:74-115): the
walk's final `now - frame`.  The source returns this value together with the
item mutation (`removeRedList`) and a modification flag (cache bookkeeping,
not modelled). -/
def removeRedDur (frame : ℚ) : List Item → ℚ → Except String ℚ
  | [], now => .ok (now - frame)
  | .event o r d _ :: rest, now =>
      match stepClear o r frame now with
      | .error e => .error e
      | .ok (_, now1) => removeRedDur frame rest (now1 + d)
  | .chain o r _ its :: rest, now =>
      match stepClear o r frame now with
      | .error e => .error e
      | .ok (_, now1) =>
          match removeRedDur now1 its now1 with
          | .error e => .error e
          | .ok subdur => removeRedDur frame rest (now1 + subdur)

/-- Item-updating component of `_removeRedundantOffsets` (chain.py:74-115):
redundant explicit offsets are cleared via `stepClear`; sub-chains are
processed recursively with `frame = now`. -/
def removeRedList (frame : ℚ) : List Item → ℚ → Except String (List Item)
  | [], _ => .ok []
  | .event o r d n :: rest, now =>
      match stepClear o r frame now with
      | .error e => .error e
      | .ok (o1, now1) =>
          match removeRedList frame rest (now1 + d) with
          | .error e => .error e
          | .ok rest1 => .ok (.event o1 r d n :: rest1)
  | .chain o r dc its :: rest, now =>
      match stepClear o r frame now with
      | .error e => .error e
      | .ok (o1, now1) =>
          match removeRedList now1 its now1 with
          | .error e => .error e
          | .ok its1 =>
              match removeRedDur now1 its now1 with
              | .error e => .error e
              | .ok subdur =>
                  match removeRedList frame rest (now1 + subdur) with
                  | .error e => .error e
                  | .ok rest1 => .ok (.chain o1 r dc its1 :: rest1)

/-- `Chain.removeRedundantOffsets` (chain.py:897-913) restricted to its effect
on the item list: `_removeRedundantOffsets(self.items, frame=F(0))` starting
from `now = 0`.  (The method additionally clears the chain's own offset when
it is `0`; the claims below are about the items.) -/
def removeRedundantOffsets (items : List Item) : Except String (List Item) :=
  removeRedList 0 items 0

/-- `Note.mergeWith` (event.py:269-294).  Two rests merge unconditionally into
a rest with the summed duration; otherwise merging requires the first event
tied, not glissandoing, neither a rest, and equal pitch, amplitude and
dynamic; the merged event keeps the first event's fields with the summed
duration and the second event's tie flag. -/
def mergeWith (o1 : Option ℚ) (r1 : Option ℚ) (d1 : ℚ) (n1 : NoteData)
    (d2 : ℚ) (n2 : NoteData) : Option Item :=
  let isRest (n : NoteData) : Bool := n.amp == some 0 && n.pitch == 0
  if isRest n1 && isRest n2 then
    some (.event o1 r1 (d1 + d2) n1)
  else if !n1.tied || n1.gliss || isRest n2 || isRest n1
      || n1.pitch != n2.pitch || n1.amp != n2.amp || n1.dynamic != n2.dynamic then
    none
  else
    some (.event o1 r1 (d1 + d2) { n1 with tied := n2.tied })

/-- Loop body of `Chain.mergeTiedEvents` (chain.py:582-623), with `last` the
pending not-yet-emitted item and the source's `i == lastidx` test rendered as
`rest = []`.  A sub-chain is processed recursively and emitted, resetting
`last` to `None` (the source does not emit a pending `last` first); for two
consecutive events a merge is attempted: on failure the pending event is
emitted and the current one becomes pending, on success the merged event
becomes pending (or is emitted, at the last index).  Only notes are modelled,
so the source's `type(last) == type(item)` test on two events always holds. -/
def mergeLoop : Option Item → List Item → List Item
  | _, [] => []
  | _, .chain o r dc its :: rest =>
      .chain o r dc (mergeLoop none its) :: mergeLoop none rest
  | some (.event lo lr ld ln), .event o r d n :: rest =>
      match mergeWith lo lr ld ln d n with
      | none => .event lo lr ld ln :: mergeLoop (some (.event o r d n)) rest
      | some m => if rest.isEmpty then [m] else mergeLoop (some m) rest
  | some (.chain lo lr ldc lits), .event o r d n :: rest =>
      .chain lo lr ldc lits :: mergeLoop (some (.event o r d n)) rest
  | none, .event o r d n :: rest =>
      if rest.isEmpty then [.event o r d n] else mergeLoop (some (.event o r d n)) rest

/-- `Chain.mergeTiedEvents` (chain.py:582-623) as a function on the item
list. -/
def mergeTiedEvents (items : List Item) : List Item :=
  mergeLoop none items

/-- `Note.makeRest` (event.py:218-240): a rest is a note with pitch 0 and
amplitude 0, here with no explicit offset (as used by `fillGaps`). -/
def makeRest (dur : ℚ) : Item :=
  .event none none dur ⟨0, some 0, "", false, false, ""⟩

/-- `Chain.fillGaps` (chain.py:244-272) on the item list: whenever an item's
explicit offset exceeds the running `now`, a rest of exactly the difference is
inserted before it; sub-chains are filled recursively; `now` then advances by
the item's duration (for a sub-chain, the stacked duration of its filled
items, which is what the `dur` property recomputes after the mutation). -/
def fillList : List Item → ℚ → List Item
  | [], _ => []
  | .event o r d n :: rest, now =>
      match o with
      | some x =>
          if now < x then
            makeRest (x - now) :: .event o r d n :: fillList rest (x + d)
          else
            .event o r d n :: fillList rest (now + d)
      | none => .event o r d n :: fillList rest (now + d)
  | .chain o r dc its :: rest, now =>
      let its' := fillList its 0
      let d := stackDur its' 0
      match o with
      | some x =>
          if now < x then
            makeRest (x - now) :: .chain o r dc its' :: fillList rest (x + d)
          else
            .chain o r dc its' :: fillList rest (now + d)
      | none => .chain o r dc its' :: fillList rest (now + d)

/-- `Chain.fillGaps` starting at `now = F(0)` (chain.py:256). -/
def fillGaps (items : List Item) : List Item :=
  fillList items 0

/-- Overlap-freedom under stacking semantics: walking with the `_stackEvents`
cursor, no item's explicit offset lies strictly before the cursor
(recursively). -/
def noOv : List Item → ℚ → Bool
  | [], _ => true
  | .event o _ d _ :: rest, now =>
      (match o with | some x => decide (now ≤ x) | none => true) && noOv rest (o.getD now + d)
  | .chain o _ _ its :: rest, now =>
      (match o with | some x => decide (now ≤ x) | none => true) && noOv its 0
        && noOv rest (o.getD now + stackDur its 0)

/-- Some item's explicit offset lies strictly after the stacking cursor: the
"positive gap" of the spec's glossary (the gap between the end of the
preceding items and an explicit offset), checked recursively. -/
def hasGap : List Item → ℚ → Bool
  | [], _ => false
  | .event o _ d _ :: rest, now =>
      (match o with | some x => decide (now < x) | none => false) || hasGap rest (o.getD now + d)
  | .chain o _ _ its :: rest, now =>
      (match o with | some x => decide (now < x) | none => false) || hasGap its 0
        || hasGap rest (o.getD now + stackDur its 0)

/-- Every explicit offset equals the stacking cursor at its position,
recursively: the claimed state of a chain after `fillGaps`. -/
def offsetsMatch : List Item → ℚ → Bool
  | [], _ => true
  | .event o _ d _ :: rest, now =>
      (match o with | some x => x == now | none => true) && offsetsMatch rest (o.getD now + d)
  | .chain o _ _ its :: rest, now =>
      (match o with | some x => x == now | none => true) && offsetsMatch its 0
        && offsetsMatch rest (o.getD now + stackDur its 0)

/-- `Chain.nextItem` (chain.py:274-299): `idx = self.items.index(item)`, then
`self.items[idx + 1] if idx < len(self.items) - 2 else None`. -/
def nextItem (items : List Item) (item : Item) : Option Item :=
  let idx := items.indexOf item
  if idx < items.length - 2 then items.get? (idx + 1) else none

/-- A chain viewed at the container level (its own `offset`, cached
`_resolvedOffset` and item list), for the chain-level methods `timeShift`,
`timeShiftInPlace` and the `Voice` constructor. -/
structure ChainS where
  offset : Option ℚ
  resolvedOffset : Option ℚ
  items : List Item
deriving Repr

/-- Relative offset of a chain.  Modelled from the spec: `MObj.relOffset`
lives in the missing `mobj.py`; per spec section 4.1 it is the explicit
`offset` if set, else the cached resolved offset, defaulting to 0 (the root's
offset "defaults effectively to 0 when unset"). -/
def relOffsetC (c : ChainS) : ℚ :=
  (c.offset.orElse fun _ => c.resolvedOffset).getD 0

/-- Offset of the first event relative to the start of the item list
(`Chain.firstOffset`, chain.py:1133-1138, evaluated on freshly stacked
items): the stacking-cursor position of the first leaf event, recursing into
sub-chains. -/
def firstOffsetAux : List Item → ℚ → Option ℚ
  | [], _ => none
  | .event o _ _ _ :: _, now => some (o.getD now)
  | .chain o _ _ its :: rest, now =>
      match firstOffsetAux its 0 with
      | some f => some (o.getD now + f)
      | none => firstOffsetAux rest (o.getD now + stackDur its 0)

/-- The position of a chain inside its parent, as consulted by
`timeShiftInPlace`: the root has no parent; otherwise the parent either has no
item before this chain, or the previous sibling ends at `prevEnd`
(`previousItem().resolveEnd()`; `resolveEnd` is modelled from the spec as
relative offset plus duration and enters only through this value). -/
inductive ParentCtx where
  | root
  | inParent (prevEnd : Option ℚ)

/-- Time-shift of a single child item.  Modelled from the spec:
`MEvent.timeShiftInPlace` lives in the missing `mobj.py`; per spec section 4.1
a shift by `delta` sets the explicit offset to the resolved relative offset
plus `delta`, and a shift by 0 is a no-op.  (For a child chain the source
recurses into `Chain.timeShiftInPlace`; the theorems below only ever apply
this with `delta = 0`, where both are the identity.) -/
def shiftItem (t : ℚ) (item : Item) : Item :=
  if t = 0 then item
  else match item with
    | .event o r d n => .event (some ((o.orElse fun _ => r).getD 0 + t)) r d n
    | .chain o r dc its => .chain (some ((o.orElse fun _ => r).getD 0 + t)) r dc its

/-- `Chain.timeShiftInPlace` (chain.py:1084-1131).  A zero shift is a no-op; a
positive shift only increases the chain's own offset.  For a negative shift,
the first event's offset is reduced as far as possible (clamped at 0), every
item is shifted by that (non-positive) amount, and any remaining shift is
applied to the chain's own offset — raising (`ValueError`) if that offset
would become negative, or, when the parent has a previous sibling, if it would
fall before that sibling's end.  `self._update()` restacks the items
(`explicitOffsets=False`) before the shift; an item list with no event makes
the source's `assert firstoffset is not None` fail, rendered as an error. -/
def timeShiftInPlace (c : ChainS) (ctx : ParentCtx) (t : ℚ) : Except String ChainS :=
  if t = 0 then .ok c
  else
    let its := stackList false c.items 0
    let rel := relOffsetC c
    if 0 < t then .ok { c with offset := some (rel + t), items := its }
    else
      match firstOffsetAux its 0 with
      | none => .error "no first event"
      | some f0 =>
          let nf0 := max 0 (f0 + t)
          let ishift := nf0 - f0
          let its' := its.map (shiftItem ishift)
          let restshift := t + f0 - nf0
          if restshift = 0 then .ok { c with items := its' }
          else
            let nrel := rel + restshift
            if nrel < 0 then .error "The shift would result in negative time"
            else
              match ctx with
              | .root => .ok { c with offset := some nrel, items := its' }
              | .inParent none => .ok { c with offset := some nrel, items := its' }
              | .inParent (some prevEnd) =>
                  if nrel < prevEnd then .error "The shift would result in negative time"
                  else .ok { c with offset := some nrel, items := its' }

/-- `Chain.timeShift` (chain.py:1070-1082): for a nonnegative resulting
offset, a clone with the offset increased and the items untouched; otherwise a
copy is shifted in place (the copy has no parent, hence the root context). -/
def timeShift (c : ChainS) (t : ℚ) : Except String ChainS :=
  if t = 0 then .ok c
  else
    let rel := relOffsetC c
    if 0 < t then .ok { c with offset := some (rel + t) }
    else if 0 ≤ rel + t then .ok { c with offset := some (rel + t) }
    else timeShiftInPlace c ParentCtx.root t

/-- The item list a `Voice` built from a chain receives (`Voice.__init__`,
chain.py:1925-1940): if the chain's offset is truthy and positive, the items
of `chain.timeShift(chain.offset)`, else the chain's items. -/
def voiceInitItems (c : ChainS) : Except String (List Item) :=
  match c.offset with
  | some o => if 0 < o then (timeShift c o).map (fun c' => c'.items) else .ok c.items
  | none => .ok c.items

/-- `Voice.__init__` from a chain (chain.py:1925-1940): the voice's own offset
is `F(0)` and its items are `voiceInitItems`. -/
def voiceOfChain (c : ChainS) : Except String ChainS :=
  (voiceInitItems c).map fun its => { offset := some 0, resolvedOffset := none, items := its }

/-- `Voice.parentAbsOffset` (chain.py:1997-1998): always `F0`. -/
def parentAbsOffset (_v : ChainS) : ℚ := 0

/-- Absolute positions of the leaf events of an item list, in order: the
stacking cursor relative to the enclosing container, plus the container's
absolute offset `base` (the flattening of `eventsWithOffset`, offsets only). -/
def absPositions (base : ℚ) : List Item → ℚ → List ℚ
  | [], _ => []
  | .event o _ d _ :: rest, now => (base + o.getD now) :: absPositions base rest (o.getD now + d)
  | .chain o _ _ its :: rest, now =>
      absPositions (base + o.getD now) its 0 ++ absPositions base rest (o.getD now + stackDur its 0)

/-- An event as seen by the glissando-resolution pass `_resolveGlissandi`
(chain.py:2218-2259): a `Note` (pitch, amplitude, gliss flag, the
`playargs['glisstime']` hint, and the `_glissTarget` cache, a pitch
initialised to 0, event.py:214) or a `Chord` (pitches, in the
ascending order the constructor sorts them into, event.py:907; gliss flag;
glisstime hint; `_glissTarget` cache, a pitch list initialised to `None`). -/
inductive GEv where
  | note (pitch : ℚ) (amp : Option ℚ) (gliss : Bool) (glisstime : Bool) (target : ℚ)
  | chord (pitches : List ℚ) (gliss : Bool) (glisstime : Bool) (target : Option (List ℚ))
deriving DecidableEq, Repr

/-- `isRest` of a glissando-pass event: a note is a rest iff its amplitude is
0 and its pitch is 0 (event.py:417-419).  Modelled from the spec for chords:
chords are multi-pitch sound events, never rests. -/
def isRestG : GEv → Bool
  | .note p a _ _ _ => a == some 0 && p == 0
  | .chord _ _ _ _ => false

/-- The pass's trigger `ev1.gliss or (ev1.playargs and ev1.playargs.get('glisstime') is not None)`
(chain.py:2232). -/
def markedG : GEv → Bool
  | .note _ _ g gt _ => g || gt
  | .chord _ g gt _ => g || gt

/-- Python truthiness of the `_glissTarget` cache (`if not force and ev1._glissTarget:`,
chain.py:2234): a note's cached pitch is truthy iff nonzero; a chord's cached
list is truthy iff present and nonempty. -/
def truthyTargetG : GEv → Bool
  | .note _ _ _ _ t => t != 0
  | .chord _ _ _ t => match t with | some l => !l.isEmpty | none => false

/-- Python truthiness of the event itself (`if ev2 and ev2.gliss:`,
chain.py:2255): notes are always truthy; a chord defines `__len__`
(event.py:937-938), so an empty chord is falsy. -/
def truthyEvG : GEv → Bool
  | .note _ _ _ _ _ => true
  | .chord ps _ _ _ => !ps.isEmpty

/-- The plain `gliss` flag, as read by the final-event handling. -/
def glissFlagG : GEv → Bool
  | .note _ _ g _ _ => g
  | .chord _ g _ _ => g

/-- Python's `max` over a pitch list (chain.py:2240).  The source raises on an
empty chord; that case is unreachable for the nonempty chords the theorems
below quantify over, and defaults to 0 here. -/
def maxQ : List ℚ → ℚ
  | [] => 0
  | [x] => x
  | x :: y :: xs => max x (maxQ (y :: xs))

/-- One step of `_resolveGlissandi` (chain.py:2229-2252): the update applied
to `ev1` given its successor `ev2`.  Pairs with a rest are skipped; an
unmarked `ev1` is untouched; a truthy cached target is kept unless `force`;
otherwise the target is the next note's pitch, the maximum of the next
chord's pitches, the last `len(ev1.notes)` pitches of the next (larger)
chord, or the next pitch repeated `len(ev1.notes)` times. -/
def resolveStep (force : Bool) (ev1 ev2 : GEv) : GEv :=
  if isRestG ev1 || isRestG ev2 then ev1
  else if markedG ev1 then
    if !force && truthyTargetG ev1 then ev1
    else
      match ev1, ev2 with
      | .note p a g gt _, .note p2 _ _ _ _ => .note p a g gt p2
      | .note p a g gt _, .chord ps2 _ _ _ => .note p a g gt (maxQ ps2)
      | .chord ps g gt _, .chord ps2 _ _ _ =>
          let ps2' := if ps.length < ps2.length then ps2.drop (ps2.length - ps.length) else ps2
          .chord ps g gt (some ps2')
      | .chord ps g gt _, .note p2 _ _ _ _ => .chord ps g gt (some (List.replicate ps.length p2))
  else ev1

/-- The pairwise loop of `_resolveGlissandi`: each event is updated from its
immediate successor (the source mutates only the left element of each pair). -/
def resolvePairs (force : Bool) : List GEv → List GEv
  | [] => []
  | [e] => [e]
  | e1 :: e2 :: rest => resolveStep force e1 e2 :: resolvePairs force (e2 :: rest)

/-- The final-event assignment of `_resolveGlissandi` (chain.py:2254-2259):
the event's own pitch(es) become its target. -/
def ownTargetG : GEv → GEv
  | .note p a g gt _ => .note p a g gt p
  | .chord ps g gt _ => .chord ps g gt (some ps)

/-- `_resolveGlissandi` (chain.py:2218-2259): the pairwise pass, then — only
when the sequence had at least two events, so that the loop variable `ev2` is
bound — the last event, if truthy and glissandoing, gets its own pitch(es) as
target. -/
def resolveGlissandi (force : Bool) (evs : List GEv) : List GEv :=
  let out := resolvePairs force evs
  if evs.length < 2 then out
  else
    match out.getLast? with
    | none => out
    | some l => if truthyEvG l && glissFlagG l then out.dropLast ++ [ownTargetG l] else out

/-- A synthesis sub-event as seen by `_splitSynthGroupsIntoLines`
(chain.py:2138-2215): its first breakpoint pitch `bps[0][1]`, last breakpoint
pitch `bps[-1][1]`, and `linkednext` flag. -/
structure SEv where
  startPitch : ℚ
  endPitch : ℚ
  linkednext : Bool
deriving DecidableEq, Repr

/-- `matchNext` (chain.py:2169-2175): the first available node of the next
group whose starting pitch is within 1e-6 of the event's ending pitch.  The
source iterates a Python set of small integers; that iteration order is not a
documented guarantee (the spec flags it as a known looseness), and is fixed
here to ascending order, which the embedding's availability lists maintain. -/
def matchNext (e : SEv) (group : List SEv) (avail : List ℕ) : Option ℕ :=
  avail.find? fun idx =>
    decide (|e.endPitch - (group.getD idx ⟨0, 0, false⟩).startPitch| < 1 / 1000000)

/-- `makeLine` (chain.py:2177-2193), with sub-events identified by their
(group index, node index) coordinates: follow the `linkednext` chain greedily,
consuming each matched node from the availability pool of its group.  The
group index increases at every recursive call, so `fuel = groups.length`
suffices for the fuel never to run out. -/
def makeLine (groups : List (List SEv)) :
    ℕ → ℕ → ℕ → List (List ℕ) → List (ℕ × ℕ) × List (List ℕ)
  | 0, nodeindex, groupindex, avail => ([(groupindex, nodeindex)], avail)
  | fuel + 1, nodeindex, groupindex, avail =>
      let ev := (groups.getD groupindex []).getD nodeindex ⟨0, 0, false⟩
      if !ev.linkednext || groupindex = groups.length - 1 then ([(groupindex, nodeindex)], avail)
      else
        let aNodes := avail.getD (groupindex + 1) []
        if aNodes.isEmpty then ([(groupindex, nodeindex)], avail)
        else
          match matchNext ev (groups.getD (groupindex + 1) []) aNodes with
          | none => ([(groupindex, nodeindex)], avail)
          | some nidx =>
              let avail' := avail.set (groupindex + 1) (aNodes.erase nidx)
              let (cont, avail'') := makeLine groups fuel nidx (groupindex + 1) avail'
              ((groupindex, nodeindex) :: cont, avail'')

/-- The inner loop of `_splitSynthGroupsIntoLines` over the available start
nodes of one group (chain.py:2200-2208): each starts a line; a single-element
line is emitted bare, a longer one as a list.  (The source also clears
`line[-1].linkednext`; that flag mutation does not alter which sub-events any
later step emits, and sub-events are identified here by coordinates.) -/
def emitLines (groups : List (List SEv)) :
    List ℕ → ℕ → List (List ℕ) → List ((ℕ × ℕ) ⊕ List (ℕ × ℕ)) × List (List ℕ)
  | [], _, avail => ([], avail)
  | n :: ns, g, avail =>
      let (line, avail') := makeLine groups groups.length n g avail
      let entry : (ℕ × ℕ) ⊕ List (ℕ × ℕ) := match line with
        | [x] => .inl x
        | l => .inr l
      let (outs, avail'') := emitLines groups ns g avail'
      (entry :: outs, avail'')

/-- The outer loop of `_splitSynthGroupsIntoLines` over all group indices
(chain.py:2199); the availability list of the group being processed is not
mutated while it is processed (consumption only ever touches later groups). -/
def outerLoop (groups : List (List SEv)) :
    ℕ → ℕ → List (List ℕ) → List ((ℕ × ℕ) ⊕ List (ℕ × ℕ)) × List (List ℕ)
  | 0, _, avail => ([], avail)
  | fuel + 1, g, avail =>
      let (outg, avail') := emitLines groups (avail.getD g []) g avail
      let (outs, avail'') := outerLoop groups fuel (g + 1) avail'
      (outg ++ outs, avail'')

/-- `_splitSynthGroupsIntoLines` (chain.py:2138-2215): the main double loop,
then the trailing block `if len(groups) > 1 and (lastGroupIndexes :=
availableNodesPerGroup[-1]): out.extend(lastGroup[idx] for idx in
lastGroupIndexes)`. -/
def splitSynthGroupsIntoLines (groups : List (List SEv)) :
    List ((ℕ × ℕ) ⊕ List (ℕ × ℕ)) :=
  let avail0 := groups.map fun g => List.range g.length
  let (out, availF) := outerLoop groups groups.length 0 avail0
  let lastIdx := groups.length - 1
  if 1 < groups.length && !(availF.getD lastIdx []).isEmpty then
    out ++ (availF.getD lastIdx []).map fun idx => .inl (lastIdx, idx)
  else out

/-- Count of the sub-event coordinate `p` in the output of the grouping pass:
standalone occurrences plus occurrences inside emitted lines. -/
def countPos (out : List ((ℕ × ℕ) ⊕ List (ℕ × ℕ))) (p : ℕ × ℕ) : ℕ :=
  out.foldl (fun acc e => acc + match e with
    | .inl x => if x = p then 1 else 0
    | .inr l => l.count p) 0

/-- A plain sounding note of the given pitch (amplitude 1, no dynamic, untied,
no glissando), for the concrete examples below. -/
def nd (p : ℚ) : NoteData := ⟨p, some 1, "", false, false, ""⟩

/-- A tied note of the given pitch. -/
def ndTied (p : ℚ) : NoteData := ⟨p, some 1, "", true, false, ""⟩

theorem stackDur_append (xs ys : List Item) :
    ∀ now : ℚ, stackDur (xs ++ ys) now = stackDur ys (stackDur xs now) := by
  induction xs with
  | nil => intro now; simp [stackDur]
  | cons x rest ih =>
      intro now
      cases x <;> simp [stackDur, ih]

theorem stack_noOffs_spec (its : List Item) (h : noOffs its = true) :
    ∀ now : ℚ, stackList true its now = specAssign now its ∧
      stackDur its now = now + itemsDur its := by
  induction its using noOffs.induct with
  | case1 => intro now; simp [stackList, stackDur, specAssign, itemsDur]
  | case2 o r d n rest ih =>
      intro now
      simp only [noOffs, Bool.and_eq_true, Option.isNone_iff_eq_none] at h
      obtain ⟨ho, hrest⟩ := h
      subst ho
      constructor
      · simp [stackList, specAssign, (ih hrest (now + d)).1]
      · simp [stackDur, itemsDur, (ih hrest (now + d)).2]; ring
  | case3 o r dc its' rest ih1 ih2 =>
      intro now
      simp only [noOffs, Bool.and_eq_true, Option.isNone_iff_eq_none] at h
      obtain ⟨⟨ho, hits⟩, hrest⟩ := h
      subst ho
      have hsub := (ih1 hits 0).2
      constructor
      · simp [stackList, specAssign, (ih1 hits 0).1, (ih2 hrest (now + itemsDur its')).1, hsub]
      · simp [stackDur, itemsDur, hsub, (ih2 hrest (now + itemsDur its')).2]; ring

/-- C1, counterexample.  The claim states that stacking the two-item list
`[Event(dur=2), Event(dur=1, offset=1)]` raises `OverlapError`.  In the
source, `_stackEvents` contains no overlap check at all (its only `raise`
guards a `None` duration): the cursor simply jumps to the explicit offset 1,
and stacking completes normally with total duration 2. -/
theorem stack_overlap_counterexample :
    stack [.event none none 2 (nd 60), .event (some 1) none 1 (nd 62)] =
      ([.event (some 0) (some 0) 2 (nd 60), .event (some 1) (some 1) 1 (nd 62)], 2) := by
  norm_num [stack, stackList, stackDur]

/-- C1, amended.  During stacking, an item's explicit offset earlier than the
running cursor is not an error: the cursor jumps (backwards) to it, and the
pass always completes.  In particular, after any prefix whatsoever, an event
with explicit offset `o` and duration `d` leaves the cursor at `o + d` —
stacking `[Event(dur=2), Event(dur=1, offset=1)]` completes with total
duration `1 + 1 = 2` (the offset-before-cursor check raising an error exists
only in `_removeRedundantOffsets`). -/
theorem stack_overlap_amended (pre : List Item) (o d : ℚ) (r : Option ℚ) (n : NoteData) :
    (stack (pre ++ [.event (some o) r d n])).2 = o + d := by
  show stackDur (pre ++ [.event (some o) r d n]) 0 = o + d
  rw [stackDur_append]
  simp [stackDur]

/-- C2.  For a container whose items recursively all have unset offsets (and
concrete durations, which every event of the embedding carries), `stack()`
assigns every item the cumulative sum of the preceding durations of its
enclosing container as explicit offset, recursively, and returns the sum of
the top-level item durations as total duration. -/
theorem stack_cumulative_offsets (its : List Item) (h : noOffs its = true) :
    stack its = (specAssign 0 its, itemsDur its) := by
  obtain ⟨h1, h2⟩ := stack_noOffs_spec its h 0
  simp [stack, h1, h2]

/-- C2, witness: three events of durations 1, 1, 2 with no offsets stack to
explicit offsets 0, 1, 2 with total duration 4. -/
theorem stack_cumulative_offsets_witness :
    stack [.event none none 1 (nd 60), .event none none 1 (nd 62), .event none none 2 (nd 64)] =
      ([.event (some 0) (some 0) 1 (nd 60), .event (some 1) (some 1) 1 (nd 62),
        .event (some 2) (some 2) 2 (nd 64)], 4) := by
  rw [stack_cumulative_offsets _ (by norm_num [noOffs])]
  norm_num [specAssign, itemsDur]

/-- C3 (code bug).  The claim — and the spec's "merge preserves total
duration" property — says `mergeTiedEvents` never changes the sum of the item
durations.  In the source loop (chain.py:597-620), when the merge attempt on
the final pair fails the branch emits the pending event but never emits the
final item itself, which is silently dropped: merging `[Note(60, dur=1),
Note(62, dur=1)]` (unmergeable: untied, different pitches) yields the single
item `[Note(60, dur=1)]`, shrinking the total duration from 2 to 1. -/
theorem mergeTiedEvents_drops_unmerged_last :
    mergeTiedEvents [.event none none 1 (nd 60), .event none none 1 (nd 62)] =
        [.event none none 1 (nd 60)] ∧
      itemsDur [.event none none 1 (nd 60), .event none none 1 (nd 62)] = 2 ∧
      itemsDur (mergeTiedEvents [.event none none 1 (nd 60), .event none none 1 (nd 62)]) = 1 := by
  norm_num [mergeTiedEvents, mergeLoop, mergeWith, itemsDur, nd]

theorem offsetsMatch_no_gap (its : List Item) (now : ℚ) :
    offsetsMatch its now = true → hasGap its now = false := by
  induction its, now using hasGap.induct with
  | case1 now => intro _; simp [hasGap]
  | case2 o r d n rest now ih =>
      cases o with
      | none =>
          intro h
          simp only [offsetsMatch, Option.getD_none, Bool.and_eq_true] at h
          simp only [hasGap, Option.getD_none, Bool.or_eq_false_iff]
          exact ⟨trivial, ih h.2⟩
      | some v =>
          intro h
          simp only [offsetsMatch, Option.getD_some, beq_iff_eq, Bool.and_eq_true,
            decide_eq_true_eq] at h
          obtain ⟨hv, hrest⟩ := h
          subst hv
          simp only [hasGap, Option.getD_some, Bool.or_eq_false_iff, decide_eq_false_iff_not]
          exact ⟨lt_irrefl _, ih hrest⟩
  | case3 o r dc sub rest now ihsub ih =>
      cases o with
      | none =>
          intro h
          simp only [offsetsMatch, Option.getD_none, Bool.and_eq_true] at h
          simp only [hasGap, Option.getD_none, Bool.or_eq_false_iff]
          exact ⟨⟨trivial, ihsub h.1.2⟩, ih h.2⟩
      | some v =>
          intro h
          simp only [offsetsMatch, Option.getD_some, beq_iff_eq, Bool.and_eq_true,
            decide_eq_true_eq] at h
          obtain ⟨⟨hv, hsub⟩, hrest⟩ := h
          subst hv
          simp only [hasGap, Option.getD_some, Bool.or_eq_false_iff, decide_eq_false_iff_not]
          exact ⟨⟨lt_irrefl _, ihsub hsub⟩, ih hrest⟩

theorem fill_spec (its : List Item) (now : ℚ) :
    noOv its now = true →
      offsetsMatch (fillList its now) now = true ∧
        stackDur (fillList its now) now = stackDur its now := by
  induction its, now using noOv.induct with
  | case1 now => intro _; simp [fillList, offsetsMatch, stackDur]
  | case2 o r d n rest now ih =>
      intro h
      cases o with
      | none =>
          simp only [noOv, Option.getD_none, Bool.and_eq_true] at h ih
          obtain ⟨ih1, ih2⟩ := ih h.2
          simp only [fillList, offsetsMatch, stackDur, Option.getD_none]
          exact ⟨ih1, ih2⟩
      | some x =>
          simp only [noOv, Option.getD_some, Bool.and_eq_true, decide_eq_true_eq] at h ih
          obtain ⟨ho, hrest⟩ := h
          obtain ⟨ih1, ih2⟩ := ih hrest
          by_cases hlt : now < x
          · have hx : now + (x - now) = x := by ring
            simp only [fillList, hlt, if_true, makeRest, offsetsMatch, stackDur,
              Option.getD_none, Option.getD_some, hx, beq_self_eq_true, Bool.true_and,
              Bool.and_eq_true]
            exact ⟨ih1, ih2⟩
          · have hx : x = now := le_antisymm (not_lt.mp hlt) ho
            subst hx
            simp only [fillList, lt_irrefl, if_false, offsetsMatch, stackDur,
              Option.getD_some, beq_self_eq_true, Bool.true_and, Bool.and_eq_true]
            exact ⟨ih1, ih2⟩
  | case3 o r dc sub rest now ihsub ih =>
      intro h
      cases o with
      | none =>
          simp only [noOv, Option.getD_none, Bool.and_eq_true] at h ih
          obtain ⟨⟨-, hsub⟩, hrest⟩ := h
          obtain ⟨s1, s2⟩ := ihsub hsub
          obtain ⟨r1, r2⟩ := ih hrest
          simp only [fillList, offsetsMatch, stackDur, Option.getD_none, s2,
            Bool.true_and, Bool.and_eq_true]
          exact ⟨⟨s1, r1⟩, r2⟩
      | some x =>
          simp only [noOv, Option.getD_some, Bool.and_eq_true, decide_eq_true_eq] at h ih
          obtain ⟨⟨ho, hsub⟩, hrest⟩ := h
          obtain ⟨s1, s2⟩ := ihsub hsub
          obtain ⟨r1, r2⟩ := ih hrest
          by_cases hlt : now < x
          · have hx : now + (x - now) = x := by ring
            simp only [fillList, hlt, if_true, makeRest, offsetsMatch, stackDur,
              Option.getD_none, Option.getD_some, s2, hx, beq_self_eq_true, Bool.true_and,
              Bool.and_eq_true]
            exact ⟨⟨s1, r1⟩, r2⟩
          · have hx : x = now := le_antisymm (not_lt.mp hlt) ho
            subst hx
            simp only [fillList, lt_irrefl, if_false, offsetsMatch, stackDur,
              Option.getD_some, s2, beq_self_eq_true, Bool.true_and, Bool.and_eq_true]
            exact ⟨⟨s1, r1⟩, r2⟩

/-- C4, counterexample.  The claim states that after `fillGaps()` no
consecutive pair of items has a positive gap, for every chain.  `fillGaps`
tracks its cursor by accumulating durations only and never moves it back to an
earlier explicit offset, so for a chain with an overlapping offset —
`[Event(dur=2), Event(dur=1, offset=1), Event(dur=1, offset=4)]` — it inserts
a rest of duration `4 - 3 = 1` while under stacking semantics the preceding
items end at 3; after the call the last item still starts a positive gap
after the inserted rest. -/
theorem fillGaps_gap_counterexample :
    hasGap (fillGaps [.event none none 2 (nd 60), .event (some 1) none 1 (nd 62),
      .event (some 4) none 1 (nd 64)]) 0 = true := by
  norm_num [fillGaps, fillList, hasGap, makeRest, nd]

/-- C4, amended.  For every chain whose items do not overlap under stacking
(no explicit offset lies before the stacking cursor, recursively), after
`fillGaps()` every explicit offset equals the running cursor at its position,
hence no consecutive pair has a positive gap; and for the claim's example
`[Event(dur=1), Event(dur=1, offset=3)]` a rest of duration exactly 2 is
inserted between the two events, giving a sequence of length 3. -/
theorem fillGaps_amended (its : List Item) (h : noOv its 0 = true) :
    offsetsMatch (fillGaps its) 0 = true ∧ hasGap (fillGaps its) 0 = false ∧
      fillGaps [.event none none 1 (nd 60), .event (some 3) none 1 (nd 62)] =
        [.event none none 1 (nd 60), makeRest 2, .event (some 3) none 1 (nd 62)] ∧
      (fillGaps [.event none none 1 (nd 60), .event (some 3) none 1 (nd 62)]).length = 3 := by
  have hm := (fill_spec its 0 h).1
  refine ⟨hm, offsetsMatch_no_gap _ _ hm, ?_, ?_⟩
  · norm_num [fillGaps, fillList, makeRest, nd]
  · norm_num [fillGaps, fillList, makeRest, nd]

/-- C4, witness: the claim's own example is overlap-free and, after
`fillGaps`, every explicit offset sits exactly at the running cursor. -/
theorem fillGaps_amended_witness :
    noOv [.event none none 1 (nd 60), .event (some 3) none 1 (nd 62)] 0 = true ∧
      offsetsMatch (fillGaps [.event none none 1 (nd 60), .event (some 3) none 1 (nd 62)]) 0
        = true := by
  have hn : noOv [.event none none 1 (nd 60), .event (some 3) none 1 (nd 62)] 0 = true := by
    norm_num [noOv]
  exact ⟨hn, (fillGaps_amended _ hn).1⟩

theorem removeRed_spec (its : List Item) (h : noOffs its = true) :
    ∀ c f : ℚ,
      removeRedList f (specAssign c its) (c + f) = .ok (stripOffsets (specAssign c its)) ∧
      removeRedDur f (specAssign c its) (c + f) = .ok (c + itemsDur its) := by
  induction its using noOffs.induct with
  | case1 =>
      intro c f
      simp [specAssign, removeRedList, removeRedDur, stripOffsets, itemsDur]
  | case2 o r d n rest ih =>
      intro c f
      simp only [noOffs, Bool.and_eq_true, Option.isNone_iff_eq_none] at h
      obtain ⟨-, hrest⟩ := h
      obtain ⟨ihl, ihd⟩ := ih hrest (c + d) f
      have hc : c + f + d = c + d + f := by ring
      refine ⟨?_, ?_⟩
      · simp only [specAssign, removeRedList, stepClear, Option.orElse, eq_self_iff_true,
          if_true, hc, ihl, stripOffsets]
      · simp only [specAssign, removeRedDur, stepClear, Option.orElse, eq_self_iff_true,
          if_true, hc, ihd, itemsDur, Except.ok.injEq]
        ring
  | case3 o r dc sub rest ihsub ih =>
      intro c f
      simp only [noOffs, Bool.and_eq_true, Option.isNone_iff_eq_none] at h
      obtain ⟨⟨-, hsub⟩, hrest⟩ := h
      obtain ⟨sl, sd⟩ := ihsub hsub 0 (c + f)
      obtain ⟨rl, rd⟩ := ih hrest (c + itemsDur sub) f
      have h0 : (0 : ℚ) + (c + f) = c + f := by ring
      rw [h0] at sl sd
      have hzero : (0 : ℚ) + itemsDur sub = itemsDur sub := by ring
      rw [hzero] at sd
      have hc : c + f + itemsDur sub = c + itemsDur sub + f := by ring
      refine ⟨?_, ?_⟩
      · simp only [specAssign, removeRedList, stepClear, Option.orElse, eq_self_iff_true,
          if_true, sl, sd, hc, rl, stripOffsets]
      · simp only [specAssign, removeRedDur, stepClear, Option.orElse, eq_self_iff_true,
          if_true, sd, hc, rd, itemsDur, Except.ok.injEq]
        ring

theorem allOffsNone_strip (its : List Item) : allOffsNone (stripOffsets its) = true := by
  induction its using stripOffsets.induct <;> simp_all [stripOffsets, allOffsNone]

/-- C5.  For a container whose items initially carry no explicit offsets
(recursively), `stack()` followed by `removeRedundantOffsets()` succeeds and
restores every item's explicit offset to `None`, recursively: the removal pass
returns exactly the stacked items with every offset stripped, and the
stripped items satisfy the all-offsets-unset predicate. -/
theorem stack_removeRedundantOffsets_roundtrip (its : List Item) (h : noOffs its = true) :
    removeRedundantOffsets (stackList true its 0) =
        .ok (stripOffsets (stackList true its 0)) ∧
      allOffsNone (stripOffsets (stackList true its 0)) = true := by
  have hs : stackList true its 0 = specAssign 0 its := (stack_noOffs_spec its h 0).1
  constructor
  · rw [hs]
    have hr := (removeRed_spec its h 0 0).1
    have h00 : (0 : ℚ) + 0 = 0 := by norm_num
    rw [h00] at hr
    simpa only [removeRedundantOffsets] using hr
  · rw [hs]
    exact allOffsNone_strip _

/-- C5, witness: a nested offset-free container (event, sub-chain of two
events, event) stacked and then passed through `removeRedundantOffsets`
returns with every explicit offset cleared again, recursively. -/
theorem stack_removeRedundantOffsets_roundtrip_witness :
    removeRedundantOffsets (stackList true
        [.event none none 1 (nd 60),
         .chain none none 0 [.event none none 1 (nd 62), .event none none 2 (nd 64)],
         .event none none 1 (nd 60)] 0) =
      .ok [.event none (some 0) 1 (nd 60),
           .chain none (some 1) 3 [.event none (some 0) 1 (nd 62), .event none (some 1) 2 (nd 64)],
           .event none (some 4) 1 (nd 60)] := by
  have h := (stack_removeRedundantOffsets_roundtrip
    [.event none none 1 (nd 60),
     .chain none none 0 [.event none none 1 (nd 62), .event none none 2 (nd 64)],
     .event none none 1 (nd 60)] (by norm_num [noOffs])).1
  rw [h]
  norm_num [stackList, stackDur, stripOffsets]

/-- C6, counterexample.  The claim states that for a container whose first
item has offset 0, `timeShiftInPlace(-5)` succeeds with the shift clamped to 0
when the container is the root.  In the source the

`if newreloffset < 0: raise ValueError(...)`

check (chain.py:1115-1118) runs before the parent is even consulted, so the
root case raises just like the non-root case: only the first item's offset is
clamped (`max(F0, firstoffset + timeoffset)`), and the leftover shift of -5
pushes the chain's own offset to -5 < 0. -/
theorem timeShiftInPlace_root_counterexample :
    timeShiftInPlace ⟨none, none, [.event (some 0) none 1 (nd 60)]⟩ ParentCtx.root (-5) =
      .error "The shift would result in negative time" := by
  norm_num [timeShiftInPlace, relOffsetC, stackList, firstOffsetAux]

/-- C6, amended.  For a container whose first item is an event with explicit
offset 0 and whose own relative offset is 0, `timeShiftInPlace(-5)` raises the
negative-time error (`ValueError`; the spec names it `NegativeTimeError`) in
every parent context — when the container is not the root and the parent has
no room, and equally when it is the root: the clamping applies only to the
first item's offset, which here has no room to give. -/
theorem timeShiftInPlace_amended (c : ChainS) (ctx : ParentCtx) (r : Option ℚ) (d : ℚ)
    (n : NoteData) (rest : List Item)
    (hrel : relOffsetC c = 0) (hitems : c.items = .event (some 0) r d n :: rest) :
    timeShiftInPlace c ctx (-5) = .error "The shift would result in negative time" := by
  simp only [timeShiftInPlace, hitems, hrel, stackList, firstOffsetAux, Option.getD_some]
  norm_num

/-- C6, witness: a chain with relative offset 0 and a single event at offset
0, inside a parent whose previous sibling ends at 2, raises on a -5 in-place
shift. -/
theorem timeShiftInPlace_amended_witness :
    relOffsetC ⟨none, none, [.event (some 0) none 1 (nd 60)]⟩ = 0 ∧
      timeShiftInPlace ⟨none, none, [.event (some 0) none 1 (nd 60)]⟩
        (ParentCtx.inParent (some 2)) (-5) = .error "The shift would result in negative time" :=
  ⟨by norm_num [relOffsetC],
   timeShiftInPlace_amended _ _ none 1 (nd 60) [] (by norm_num [relOffsetC]) rfl⟩

/-- C7 (code bug).  The claim — and spec section 4.3 — says that building a
Voice from a chain with positive offset bakes the offset into the children so
every event keeps its absolute position.  `Voice.__init__` attempts this via
`events = chain.timeShift(chain.offset).items` (chain.py:1934), but a positive
`timeShift` only returns a clone with a larger chain offset and the items
untouched, and the clone's offset is then discarded: for `Chain(offset=1,
items=[Note(dur=1)])` the resulting voice has offset 0 and `parentAbsOffset()
== 0` as claimed, yet its single event sits at absolute position 0 instead of
the original 1 (and 1 ≠ 0). -/
theorem voiceOfChain_offset_not_baked :
    voiceOfChain ⟨some 1, none, [.event none none 1 (nd 60)]⟩ =
        .ok ⟨some 0, none, [.event none none 1 (nd 60)]⟩ ∧
      parentAbsOffset ⟨some 0, none, [.event none none 1 (nd 60)]⟩ = 0 ∧
      absPositions (relOffsetC ⟨some 1, none, [.event none none 1 (nd 60)]⟩)
          [.event none none 1 (nd 60)] 0 = [1] ∧
      absPositions (relOffsetC ⟨some 0, none, [.event none none 1 (nd 60)]⟩)
          [.event none none 1 (nd 60)] 0 = [0] ∧
      (1 : ℚ) ≠ 0 := by
  norm_num [voiceOfChain, voiceInitItems, timeShift, relOffsetC, parentAbsOffset, absPositions,
    Except.map]

theorem maxQ_mem : ∀ ps : List ℚ, ps ≠ [] → maxQ ps ∈ ps := by
  intro ps
  induction ps using maxQ.induct with
  | case1 => intro h; exact absurd rfl h
  | case2 x => intro _; simp [maxQ]
  | case3 x y xs ih =>
      intro _
      rcases max_choice x (maxQ (y :: xs)) with h | h <;> simp only [maxQ, h]
      · exact List.mem_cons_self _ _
      · exact List.mem_cons_of_mem _ (ih (by simp))

theorem le_maxQ : ∀ ps : List ℚ, ∀ q ∈ ps, q ≤ maxQ ps := by
  intro ps
  induction ps using maxQ.induct with
  | case1 => intro q hq; simp at hq
  | case2 x => intro q hq; simp at hq; simp [maxQ, hq]
  | case3 x y xs ih =>
      intro q hq
      rcases List.mem_cons.mp hq with h | h
      · subst h; exact le_max_left _ _
      · exact le_trans (ih q h) (le_max_right _ _)

theorem resolvePairs_getLast (force : Bool) :
    ∀ evs : List GEv, (resolvePairs force evs).getLast? = evs.getLast? := by
  intro evs
  induction evs using resolvePairs.induct force with
  | case1 => rfl
  | case2 e => rfl
  | case3 e1 e2 rest ih =>
      cases rest with
      | nil => simp [resolvePairs]
      | cons r rs =>
          have hne : resolvePairs force (e2 :: r :: rs) =
              resolveStep force e2 r :: resolvePairs force (r :: rs) := by rw [resolvePairs]
          rw [resolvePairs, hne, List.getLast?_cons_cons, ← hne, ih,
            List.getLast?_cons_cons]
          exact (List.getLast?_cons_cons (a := e2)).symm

/-- C8, amended.  After the glissando-resolution pass, for every adjacent
pair whose first event is marked and neither is a rest (and whose cached
target is not yet set): single pitch followed by single pitch caches the next
pitch; single pitch followed by a nonempty chord caches the chord's highest
pitch; a chord of N notes followed by a larger sorted chord caches that
chord's highest N pitches; a chord followed by a single pitch caches that
pitch repeated N times.  A final event that is marked for glissando gets its
own pitch(es) as target — but only when the sequence has at least two events
(a lone marked event is left untouched, see the counterexample). -/
theorem resolveGlissandi_amended :
    (∀ (force : Bool) (p p2 : ℚ) (a a2 : Option ℚ) (gt g2 gt2 : Bool) (t2 : ℚ),
        isRestG (.note p a true gt 0) = false → isRestG (.note p2 a2 g2 gt2 t2) = false →
        resolveStep force (.note p a true gt 0) (.note p2 a2 g2 gt2 t2) =
          .note p a true gt p2) ∧
    (∀ (force : Bool) (p : ℚ) (a : Option ℚ) (gt g2 gt2 : Bool) (ps2 : List ℚ)
        (t2 : Option (List ℚ)),
        isRestG (.note p a true gt 0) = false → ps2 ≠ [] →
        resolveStep force (.note p a true gt 0) (.chord ps2 g2 gt2 t2) =
            .note p a true gt (maxQ ps2) ∧
          maxQ ps2 ∈ ps2 ∧ ∀ x ∈ ps2, x ≤ maxQ ps2) ∧
    (∀ (force : Bool) (ps ps2 : List ℚ) (gt g2 gt2 : Bool) (t2 : Option (List ℚ)),
        ps.length < ps2.length → ps2.Sorted (· ≤ ·) →
        resolveStep force (.chord ps true gt none) (.chord ps2 g2 gt2 t2) =
            .chord ps true gt (some (ps2.drop (ps2.length - ps.length))) ∧
          (ps2.drop (ps2.length - ps.length)).length = ps.length ∧
          ∀ x ∈ ps2.take (ps2.length - ps.length),
            ∀ y ∈ ps2.drop (ps2.length - ps.length), x ≤ y) ∧
    (∀ (force : Bool) (ps : List ℚ) (gt : Bool) (p2 : ℚ) (a2 : Option ℚ) (g2 gt2 : Bool)
        (t2 : ℚ),
        isRestG (.note p2 a2 g2 gt2 t2) = false →
        resolveStep force (.chord ps true gt none) (.note p2 a2 g2 gt2 t2) =
          .chord ps true gt (some (List.replicate ps.length p2))) ∧
    (∀ (force : Bool) (evs : List GEv) (e : GEv),
        2 ≤ evs.length → evs.getLast? = some e → truthyEvG e = true → glissFlagG e = true →
        resolveGlissandi force evs = (resolvePairs force evs).dropLast ++ [ownTargetG e]) := by
  refine ⟨?_, ?_, ?_, ?_, ?_⟩
  · intro force p p2 a a2 gt g2 gt2 t2 h1 h2
    simp [resolveStep, markedG, truthyTargetG, h1, h2]
  · intro force p a gt g2 gt2 ps2 t2 h1 hne
    refine ⟨?_, maxQ_mem ps2 hne, le_maxQ ps2⟩
    have hchord : isRestG (.chord ps2 g2 gt2 t2) = false := rfl
    simp [resolveStep, markedG, truthyTargetG, h1, hchord]
  · intro force ps ps2 gt g2 gt2 t2 hlen hsort
    refine ⟨?_, ?_, ?_⟩
    · have hc1 : isRestG (.chord ps true gt none) = false := rfl
      have hc2 : isRestG (.chord ps2 g2 gt2 t2) = false := rfl
      simp [resolveStep, markedG, truthyTargetG, hc1, hc2, hlen]
    · simp only [List.length_drop]
      omega
    · intro x hx y hy
      have hsplit := hsort
      rw [← List.take_append_drop (ps2.length - ps.length) ps2] at hsplit
      exact (List.pairwise_append.mp hsplit).2.2 x hx y hy
  · intro force ps gt p2 a2 g2 gt2 t2 h2
    have hc1 : isRestG (.chord ps true gt none) = false := rfl
    simp [resolveStep, markedG, truthyTargetG, h2, hc1]
  · intro force evs e h2 hl ht hg
    rw [resolveGlissandi]
    rw [if_neg (by omega)]
    rw [resolvePairs_getLast force evs, hl]
    simp [ht, hg]

/-- C8, counterexample.  The claim says an event marked for glissando with no
valid successor gets its own pitch(es) as cached target.  The pass only
assigns that default through the loop variable of its pairwise scan
(chain.py:2254-2259), which is never bound for a one-event sequence: a lone
glissando-marked note keeps its initial cached target 0, not its own pitch
60. -/
theorem resolveGlissandi_lone_event_counterexample :
    resolveGlissandi false [.note 60 (some 1) true false 0] = [.note 60 (some 1) true false 0] ∧
      (0 : ℚ) ≠ 60 := by
  norm_num [resolveGlissandi, resolvePairs]

/-- C8, witness: concrete instances of all five amended rules — note to note,
note to chord (highest of 62/65/69), 2-chord to 3-chord (highest two), chord
to note (repeated twice), and the final marked event of a two-event sequence
receiving its own pitch. -/
theorem resolveGlissandi_amended_witness :
    resolveStep false (.note 60 (some 1) true false 0) (.note 64 (some 1) false false 0) =
        .note 60 (some 1) true false 64 ∧
      resolveStep false (.note 60 (some 1) true false 0) (.chord [62, 65, 69] false false none) =
        .note 60 (some 1) true false (maxQ [62, 65, 69]) ∧
      resolveStep false (.chord [60, 64] true false none) (.chord [62, 65, 69] false false none) =
        .chord [60, 64] true false (some ([62, 65, 69].drop 1)) ∧
      resolveStep false (.chord [60, 64] true false none) (.note 70 (some 1) false false 0) =
        .chord [60, 64] true false (some (List.replicate 2 70)) ∧
      resolveGlissandi false [.note 60 (some 1) false false 0, .note 64 (some 1) true false 0] =
        (resolvePairs false
            [.note 60 (some 1) false false 0, .note 64 (some 1) true false 0]).dropLast
          ++ [ownTargetG (.note 64 (some 1) true false 0)] := by
  obtain ⟨h1, h2, h3, h4, h5⟩ := resolveGlissandi_amended
  refine ⟨h1 false 60 64 (some 1) (some 1) false false false 0 (by norm_num [isRestG])
      (by norm_num [isRestG]),
    (h2 false 60 (some 1) false false false [62, 65, 69] none (by norm_num [isRestG])
      (by simp)).1,
    ?_,
    h4 false [60, 64] false 70 (some 1) false false 0 (by norm_num [isRestG]),
    h5 false _ _ (by norm_num) (by rfl) (by norm_num [truthyEvG]) (by norm_num [glissFlagG])⟩
  have h3c := (h3 false [60, 64] [62, 65, 69] false false false none (by norm_num)
    (by simp [List.sorted_cons]; norm_num)).1
  simpa using h3c

/-- C9 (code bug).  The claim — and the docstring of
`_splitSynthGroupsIntoLines` itself (chain.py:2149-2154, whose own example
would come out with `G3` twice) — says every input sub-event appears exactly
once in the output.  Start nodes are never removed from their group's
availability set, so after the main double loop has already emitted every
remaining last-group node as a standalone line, the trailing block
(chain.py:2211-2213) emits all of them a second time: for two singleton
groups with no links, sub-event (1,0) of the last group appears twice. -/
theorem splitSynthGroups_duplicate_emission :
    splitSynthGroupsIntoLines [[⟨60, 60, false⟩], [⟨62, 62, false⟩]] =
        [.inl (0, 0), .inl (1, 0), .inl (1, 0)] ∧
      countPos [.inl (0, 0), .inl (1, 0), .inl (1, 0)] (1, 0) = 2 := by
  exact ⟨by decide, by decide⟩

/-- C10.  `Chain.nextItem(item)` compares the item's index against
`len(self.items) - 2` (chain.py:299), so it returns the following item
`items[i+1]` only when `i + 2 < len(items)` (i.e. `i ≤ len - 3`); for the
last item and for the second-to-last item it returns `None` — even though the
second-to-last item does have a following item. -/
theorem nextItem_spec (items : List Item) (item : Item) (i : ℕ)
    (hidx : items.indexOf item = i) (hlt : i < items.length) :
    (i + 2 < items.length → nextItem items item = items.get? (i + 1)) ∧
    (items.length ≤ i + 2 → nextItem items item = none) ∧
    (i + 2 = items.length → items.get? (i + 1) ≠ none) := by
  simp only [nextItem, hidx]
  refine ⟨?_, ?_, ?_⟩
  · intro h
    rw [if_pos (by omega : i < items.length - 2)]
  · intro h
    rw [if_neg (by omega : ¬ i < items.length - 2)]
  · intro h
    simp only [ne_eq, List.get?_eq_none]
    omega

/-- C10, witness: in a three-item chain, `nextItem` of the second-to-last
item is `None` although a following item exists. -/
theorem nextItem_spec_witness :
    nextItem [.event none none 1 (nd 60), .event none none 1 (nd 62), .event none none 2 (nd 64)]
        (.event none none 1 (nd 62)) = none ∧
      [Item.event none none 1 (nd 60), .event none none 1 (nd 62),
        .event none none 2 (nd 64)].get? 2 ≠ none := by
  have h := nextItem_spec
    [.event none none 1 (nd 60), .event none none 1 (nd 62), .event none none 2 (nd 64)]
    (.event none none 1 (nd 62)) 1 (by rfl) (by norm_num)
  exact ⟨h.2.1 (by norm_num), h.2.2 (by norm_num)⟩
